import Mathlib

/-!
Shallow embedding of the stabilizer-group calculator
(`fusion_update.py` / `support.py`; the two copies of the core are
identical line for line, so one embedding covers both).

Pauli strings are `List Char`; a signed Pauli operator is `Int × List Char`.
Fallible Python code (assertions, dict `KeyError`, list `IndexError`,
`ValueError`) is modelled with `Except Err`.
-/

namespace FusionUpdate

/-- Errors the Python core can raise: the two `ValueError`s / asserts named by
the code ("Mismatched length" / "Measurement length does not match stabilizer
length" map to `lengthMismatch`, the non-Hermitian guard to
`nonHermitianPhase`), plus the implicit `KeyError` of the `_SINGLE_MULT`
dictionary lookup and the implicit `IndexError` of list indexing. -/
inductive Err where
  | lengthMismatch
  | nonHermitianPhase
  | keyError
  | indexError
deriving DecidableEq

/-- A signed Pauli operator `(sign, string)` as in the source. -/
abbrev SPauli := Int × List Char

/-- A stabilizer generator list. -/
abbrev Gens := List SPauli

/-- The `_SINGLE_MULT` dictionary of the source: per-character Pauli product,
`(a, b) ↦ (phase exponent in Z4, result character)`; `none` models the
`KeyError` a lookup outside the 16 listed keys would raise. -/
def _SINGLE_MULT (a b : Char) : Option (Nat × Char) :=
  match a, b with
  | 'I','I' => some (0,'I')
  | 'I','X' => some (0,'X')
  | 'I','Y' => some (0,'Y')
  | 'I','Z' => some (0,'Z')
  | 'X','I' => some (0,'X')
  | 'X','X' => some (0,'I')
  | 'X','Y' => some (1,'Z')
  | 'X','Z' => some (3,'Y')
  | 'Y','I' => some (0,'Y')
  | 'Y','X' => some (3,'Z')
  | 'Y','Y' => some (0,'I')
  | 'Y','Z' => some (1,'X')
  | 'Z','I' => some (0,'Z')
  | 'Z','X' => some (1,'Y')
  | 'Z','Y' => some (3,'X')
  | 'Z','Z' => some (0,'I')
  | _, _ => none

/-- The `for a,b in zip(P,Q)` loop of `multiply_pauli`: threads the phase
accumulator (reduced mod 4 at each step, as in the source) and collects the
result characters; `none` models a `KeyError` from `_SINGLE_MULT`. -/
def mulLoop : List Char → List Char → Nat → Option (Nat × List Char)
  | a :: P, b :: Q, acc =>
    match _SINGLE_MULT a b with
    | none => none
    | some (e, r) =>
      match mulLoop P Q ((acc + e) % 4) with
      | none => none
      | some (ph, rest) => some (ph, r :: rest)
  | _, _, acc => some (acc, [])

/-- `multiply_pauli(p, q)` from the source: asserts equal lengths, runs the
per-character product loop, rejects an odd accumulated phase exponent
(`NonHermitianPhase`), and otherwise folds the `±1` phase into the sign. -/
def multiply_pauli (p q : SPauli) : Except Err SPauli :=
  if p.2.length ≠ q.2.length then .error .lengthMismatch
  else
    match mulLoop p.2 q.2 0 with
    | none => .error .keyError
    | some (phase_exp, out_chars) =>
      if phase_exp % 2 ≠ 0 then .error .nonHermitianPhase
      else .ok (p.1 * q.1 * (if phase_exp = 0 then 1 else -1), out_chars)

/-- The `anti_pairs` set of the source: the six ordered anticommuting
single-qubit pairs. -/
def anti_pairs : List (Char × Char) :=
  [('X','Y'), ('Y','X'), ('X','Z'), ('Z','X'), ('Y','Z'), ('Z','Y')]

/-- One position's contribution to the anticommutation parity, exactly the
loop condition of `anticommutes`:
`a != 'I' and b != 'I' and a != b and (a,b) in anti_pairs`. -/
def antiBit (a b : Char) : Bool :=
  a != 'I' && b != 'I' && a != b && decide ((a, b) ∈ anti_pairs)

/-- The parity accumulated by the `anticommutes` loop over `zip(P, Q)`. -/
def antiParity : List Char → List Char → Bool
  | a :: P, b :: Q => (antiBit a b).xor (antiParity P Q)
  | _, _ => false

/-- `anticommutes(P, Q)` from the source: asserts equal lengths, then returns
whether the accumulated parity is odd. -/
def anticommutes (P Q : List Char) : Except Err Bool :=
  if P.length ≠ Q.length then .error .lengthMismatch
  else .ok (antiParity P Q)

/-- `outcomes.get(M, +1)` of the source: the outcome map is modelled as an
association list; a missing key defaults to `+1`. -/
def getOutcome (outcomes : List (List Char × Int)) (M : List Char) : Int :=
  match List.lookup M outcomes with
  | some v => v
  | none => 1

/-- The list comprehension
`[j for j,(sg, G) in enumerate(gens) if anticommutes(G, M)]`, with `j`
starting at the given offset; an assertion failure inside `anticommutes`
propagates as an error. -/
def antiIdxGo (M : List Char) : Nat → Gens → Except Err (List Nat)
  | _, [] => .ok []
  | j, (_, G) :: rest =>
    match anticommutes G M with
    | .error e => .error e
    | .ok b =>
      match antiIdxGo M (j + 1) rest with
      | .error e => .error e
      | .ok t => .ok (if b then j :: t else t)

/-- The `for j in anti_idx[1:]` loop of the updater:
`gens[j] = multiply_pauli(gens[j], old_pivot)` for each remaining
anticommuting index, propagating any error `multiply_pauli` raises. -/
def applyPivots (old_pivot : SPauli) : List Nat → Gens → Except Err Gens
  | [], gens => .ok gens
  | j :: rest, gens =>
    match gens.get? j with
    | none => .error .indexError
    | some g =>
      match multiply_pauli g old_pivot with
      | .error e => .error e
      | .ok r => applyPivots old_pivot rest (gens.set j r)

/-- The body of the `for M in fusion_meas` loop: length check, outcome lookup,
anticommuting-index scan, then either append (Case A) or
pivot-overwrite-and-combine (Case B). -/
def processMeas (outcomes : List (List Char × Int)) (n : Nat)
    (gens : Gens) (M : List Char) : Except Err Gens :=
  if M.length ≠ n then .error .lengthMismatch
  else
    match antiIdxGo M 0 gens with
    | .error e => .error e
    | .ok [] => .ok (gens ++ [(getOutcome outcomes M, M)])
    | .ok (p :: rest) =>
      match gens.get? p with
      | none => .error .indexError
      | some old_pivot =>
        applyPivots old_pivot rest (gens.set p (getOutcome outcomes M, M))

/-- The outer measurement loop of `update_resource_with_fusions`. -/
def updateLoop (outcomes : List (List Char × Int)) (n : Nat) :
    Gens → List (List Char) → Except Err Gens
  | gens, [] => .ok gens
  | gens, M :: rest =>
    match processMeas outcomes n gens M with
    | .error e => .error e
    | .ok gens2 => updateLoop outcomes n gens2 rest

/-- The qubit-count inference of the source:
`n = len(gens[0][1]) if gens else (len(fusion_meas[0]) if fusion_meas else 0)`. -/
def inferN (resource_gens : Gens) (fusion_meas : List (List Char)) : Nat :=
  match resource_gens with
  | (_, G) :: _ => G.length
  | [] =>
    match fusion_meas with
    | M :: _ => M.length
    | [] => 0

/-- `update_resource_with_fusions(resource_gens, fusion_meas, outcomes)`:
works on a copy of the generator list (value semantics here), infers the
qubit count, and folds the per-measurement step over the measurements. -/
def update_resource_with_fusions (resource_gens : Gens)
    (fusion_meas : List (List Char)) (outcomes : List (List Char × Int)) :
    Except Err Gens :=
  updateLoop outcomes (inferN resource_gens fusion_meas) resource_gens fusion_meas

/-! ## Spec-side definitions

These follow the wording of the specification, for comparison with the
embedded source. -/

/-- Membership in the 4-symbol Pauli alphabet of the data model. -/
def isPauliChar (c : Char) : Bool :=
  c == 'I' || c == 'X' || c == 'Y' || c == 'Z'

/-- The single-qubit product table as the spec words it: `I` is neutral with
phase 0; equal symbols give `I` with phase 0; and the six mixed products
`X·Y → i·Z`, `Y·X → -i·Z`, `Y·Z → i·X`, `Z·Y → -i·X`, `Z·X → i·Y`,
`X·Z → -i·Y` (a factor `i` is phase exponent 1, a factor `-i` is 3).
Only meaningful on the alphabet; the last branch is the remaining valid
pair `(X, Z)`. -/
def specEntry (a b : Char) : Nat × Char :=
  if a = 'I' then (0, b)
  else if b = 'I' then (0, a)
  else if a = b then (0, 'I')
  else if a = 'X' ∧ b = 'Y' then (1, 'Z')
  else if a = 'Y' ∧ b = 'X' then (3, 'Z')
  else if a = 'Y' ∧ b = 'Z' then (1, 'X')
  else if a = 'Z' ∧ b = 'Y' then (3, 'X')
  else if a = 'Z' ∧ b = 'X' then (1, 'Y')
  else (3, 'Y')

/-- The spec's "phase exponent accumulated over all positions" (before the
mod-4 reduction). -/
def totalExp : List Char → List Char → Nat
  | a :: P, b :: Q => (specEntry a b).1 + totalExp P Q
  | _, _ => 0

/-- The spec's "concatenate the result symbols in position order". -/
def prodString : List Char → List Char → List Char
  | a :: P, b :: Q => (specEntry a b).2 :: prodString P Q
  | _, _ => []

/-- The spec's "indices of all generators whose Pauli string anticommutes
with `M`", starting the numbering at `k`. -/
def antiListSpec (M : List Char) : Nat → Gens → List Nat
  | _, [] => []
  | k, (_, G) :: rest =>
    if antiParity G M then k :: antiListSpec M (k + 1) rest
    else antiListSpec M (k + 1) rest

/-- 1 when the anticommuting-index scan of `M` against `gens` comes back
empty (Case A of the spec), 0 otherwise. -/
def caseAFlag (gens : Gens) (M : List Char) : Nat :=
  match antiIdxGo M 0 gens with
  | .ok [] => 1
  | _ => 0

/-- The spec's "number of measurements that fell into Case A": replays the
update and counts the successfully processed measurements whose
anticommuting-index scan came back empty. -/
def caseACount (outcomes : List (List Char × Int)) (n : Nat) :
    Gens → List (List Char) → Nat
  | _, [] => 0
  | gens, M :: rest =>
    match processMeas outcomes n gens M with
    | .error _ => 0
    | .ok gens2 => caseAFlag gens M + caseACount outcomes n gens2 rest

/-! ## Helper lemmas about the Pauli algebra -/

lemma isPauliChar_cases {c : Char} (h : isPauliChar c = true) :
    c = 'I' ∨ c = 'X' ∨ c = 'Y' ∨ c = 'Z' := by
  simp only [isPauliChar, Bool.or_eq_true, beq_iff_eq] at h
  tauto

lemma singleMult_eq_spec {a b : Char} (ha : isPauliChar a = true)
    (hb : isPauliChar b = true) : _SINGLE_MULT a b = some (specEntry a b) := by
  rcases isPauliChar_cases ha with rfl | rfl | rfl | rfl <;>
    rcases isPauliChar_cases hb with rfl | rfl | rfl | rfl <;> rfl

lemma mulLoop_eq (P : List Char) : ∀ (Q : List Char) (acc : Nat), acc < 4 →
    P.all isPauliChar = true → Q.all isPauliChar = true →
    mulLoop P Q acc = some ((acc + totalExp P Q) % 4, prodString P Q) := by
  induction P with
  | nil =>
    intro Q acc hacc _ _
    cases Q <;> simp [mulLoop, totalExp, prodString, Nat.mod_eq_of_lt hacc]
  | cons a P ih =>
    intro Q acc hacc hP hQ
    cases Q with
    | nil => simp [mulLoop, totalExp, prodString, Nat.mod_eq_of_lt hacc]
    | cons b Q =>
      simp only [List.all_cons, Bool.and_eq_true] at hP hQ
      rcases hab : specEntry a b with ⟨e, r⟩
      rw [mulLoop, singleMult_eq_spec hP.1 hQ.1, hab]
      simp only [ih Q ((acc + e) % 4) (Nat.mod_lt _ (by omega)) hP.2 hQ.2,
        totalExp, prodString, hab, Option.some.injEq, Prod.mk.injEq]
      exact ⟨by omega, trivial⟩

lemma multiply_pauli_eq (sp sq : Int) (P Q : List Char)
    (hlen : P.length = Q.length) (hP : P.all isPauliChar = true)
    (hQ : Q.all isPauliChar = true) :
    multiply_pauli (sp, P) (sq, Q) =
      if totalExp P Q % 4 % 2 = 1 then .error .nonHermitianPhase
      else .ok (sp * sq * (if totalExp P Q % 4 = 0 then 1 else -1),
        prodString P Q) := by
  simp only [multiply_pauli, hlen, ne_eq, not_true_eq_false, if_false,
    mulLoop_eq P Q 0 (by omega) hP hQ, Nat.zero_add]
  by_cases h : totalExp P Q % 4 % 2 = 1 <;> simp [h]

lemma prodString_length : ∀ P Q : List Char, P.length = Q.length →
    (prodString P Q).length = P.length := by
  intro P
  induction P with
  | nil => intro Q _; rfl
  | cons a P ih =>
    intro Q hlen
    cases Q with
    | nil => simp at hlen
    | cons b Q =>
      simp only [List.length_cons, Nat.succ.injEq] at hlen
      simp [prodString, ih Q hlen]

lemma specEntry_parity {a b : Char} (ha : isPauliChar a = true)
    (hb : isPauliChar b = true) :
    (specEntry a b).1 % 2 = if antiBit a b then 1 else 0 := by
  rcases isPauliChar_cases ha with rfl | rfl | rfl | rfl <;>
    rcases isPauliChar_cases hb with rfl | rfl | rfl | rfl <;> decide

lemma totalExp_parity : ∀ P Q : List Char, P.all isPauliChar = true →
    Q.all isPauliChar = true →
    totalExp P Q % 2 = if antiParity P Q then 1 else 0 := by
  intro P
  induction P with
  | nil => intro Q _ _; cases Q <;> simp [totalExp, antiParity]
  | cons a P ih =>
    intro Q hP hQ
    cases Q with
    | nil => simp [totalExp, antiParity]
    | cons b Q =>
      simp only [List.all_cons, Bool.and_eq_true] at hP hQ
      have h1 := specEntry_parity hP.1 hQ.1
      have h2 := ih Q hP.2 hQ.2
      simp only [totalExp, antiParity]
      rcases Bool.eq_false_or_eq_true (antiBit a b) with hb1 | hb1 <;>
        rcases Bool.eq_false_or_eq_true (antiParity P Q) with hb2 | hb2 <;>
          simp [hb1, hb2] at h1 h2 ⊢ <;> omega

lemma antiBit_self (a : Char) : antiBit a a = false := by
  simp [antiBit]

lemma antiParity_self : ∀ P : List Char, antiParity P P = false := by
  intro P
  induction P with
  | nil => rfl
  | cons a P ih => simp [antiParity, antiBit_self, ih]

lemma mem_anti_pairs_swap {a b : Char} (h : (a, b) ∈ anti_pairs) :
    (b, a) ∈ anti_pairs := by
  simp [anti_pairs, Prod.ext_iff] at h ⊢
  tauto

lemma antiBit_symm (a b : Char) : antiBit a b = antiBit b a := by
  rw [Bool.eq_iff_iff]
  simp only [antiBit, Bool.and_eq_true, bne_iff_ne, ne_eq,
    decide_eq_true_eq, and_assoc]
  constructor <;> rintro ⟨h1, h2, h3, h4⟩ <;>
    exact ⟨h2, h1, Ne.symm h3, mem_anti_pairs_swap h4⟩

lemma antiParity_symm : ∀ P Q : List Char, antiParity P Q = antiParity Q P := by
  intro P
  induction P with
  | nil => intro Q; cases Q <;> rfl
  | cons a P ih =>
    intro Q
    cases Q with
    | nil => rfl
    | cons b Q => simp only [antiParity]; rw [antiBit_symm, ih]

/-! ## Helper lemmas about the updater -/

lemma antiIdxGo_eq (M : List Char) : ∀ (k : Nat) (gens : Gens),
    (∀ g ∈ gens, (g.2).length = M.length) →
    antiIdxGo M k gens = .ok (antiListSpec M k gens) := by
  intro k gens
  induction gens generalizing k with
  | nil => intro _; rfl
  | cons g rest ih =>
    intro h
    rcases g with ⟨s, G⟩
    have hG : G.length = M.length := h (s, G) (List.mem_cons_self _ _)
    rw [antiIdxGo, anticommutes]
    simp only [hG, ne_eq, not_true_eq_false, if_false]
    rw [ih (k + 1) (fun g hg => h g (List.mem_cons_of_mem _ hg))]
    simp [antiListSpec]

lemma mem_antiListSpec (M : List Char) : ∀ (k : Nat) (gens : Gens) (i : Nat),
    i ∈ antiListSpec M k gens ↔
      ∃ j g, gens.get? j = some g ∧ antiParity g.2 M = true ∧ i = k + j := by
  intro k gens
  induction gens generalizing k with
  | nil => intro i; simp [antiListSpec]
  | cons g rest ih =>
    intro i
    rcases g with ⟨s, G⟩
    simp only [antiListSpec]
    by_cases hb : antiParity G M = true
    · rw [if_pos hb]
      constructor
      · intro hi
        rcases List.mem_cons.mp hi with rfl | hi
        · exact ⟨0, (s, G), rfl, hb, by omega⟩
        · obtain ⟨j, g, hj, ha, rfl⟩ := (ih (k + 1) i).mp hi
          exact ⟨j + 1, g, by simpa using hj, ha, by omega⟩
      · rintro ⟨j, g, hj, ha, rfl⟩
        cases j with
        | zero => exact List.mem_cons_self _ _
        | succ j =>
          exact List.mem_cons_of_mem _
            ((ih (k + 1) _).mpr ⟨j, g, by simpa using hj, ha, by omega⟩)
    · rw [if_neg hb]
      constructor
      · intro hi
        obtain ⟨j, g, hj, ha, rfl⟩ := (ih (k + 1) i).mp hi
        exact ⟨j + 1, g, by simpa using hj, ha, by omega⟩
      · rintro ⟨j, g, hj, ha, rfl⟩
        cases j with
        | zero =>
          simp only [List.get?_cons_zero, Option.some.injEq] at hj
          rw [← hj] at ha
          exact absurd ha hb
        | succ j =>
          exact (ih (k + 1) _).mpr ⟨j, g, by simpa using hj, ha, by omega⟩

lemma antiListSpec_le (M : List Char) (k : Nat) (gens : Gens) (i : Nat)
    (h : i ∈ antiListSpec M k gens) : k ≤ i := by
  obtain ⟨j, g, _, _, rfl⟩ := (mem_antiListSpec M k gens i).mp h
  omega

lemma antiListSpec_pairwise (M : List Char) : ∀ (k : Nat) (gens : Gens),
    (antiListSpec M k gens).Pairwise (· < ·) := by
  intro k gens
  induction gens generalizing k with
  | nil => exact List.Pairwise.nil
  | cons g rest ih =>
    rcases g with ⟨s, G⟩
    simp only [antiListSpec]
    by_cases hb : antiParity G M = true
    · rw [if_pos hb]
      exact List.pairwise_cons.mpr
        ⟨fun i hi => by have := antiListSpec_le M (k + 1) rest i hi; omega, ih _⟩
    · rw [if_neg hb]
      exact ih _

lemma antiListSpec_nil_of_commute (M : List Char) : ∀ (k : Nat) (gens : Gens),
    (∀ g ∈ gens, antiParity g.2 M = false) → antiListSpec M k gens = [] := by
  intro k gens
  induction gens generalizing k with
  | nil => intro _; rfl
  | cons g rest ih =>
    intro h
    rcases g with ⟨s, G⟩
    simp only [antiListSpec]
    rw [if_neg (by simp [h (s, G) (List.mem_cons_self _ _)])]
    exact ih _ (fun g hg => h g (List.mem_cons_of_mem _ hg))

lemma applyPivots_ok (oldp : SPauli) : ∀ (idxs : List Nat) (gens r : Gens),
    idxs.Nodup → (∀ j ∈ idxs, j < gens.length) →
    applyPivots oldp idxs gens = .ok r →
    r.length = gens.length ∧
    (∀ j, j ∉ idxs → r.get? j = gens.get? j) ∧
    (∀ j ∈ idxs, ∃ g v, gens.get? j = some g ∧
      multiply_pauli g oldp = .ok v ∧ r.get? j = some v) := by
  intro idxs
  induction idxs with
  | nil =>
    intro gens r _ _ h
    simp only [applyPivots, Except.ok.injEq] at h
    subst h
    exact ⟨rfl, fun _ _ => rfl, fun j hj => absurd hj (List.not_mem_nil j)⟩
  | cons j rest ih =>
    intro gens r hnd hbound h
    rw [applyPivots] at h
    rcases hj : gens.get? j with _ | g
    · simp only [hj] at h
      exact Except.noConfusion h
    · simp only [hj] at h
      rcases hm : multiply_pauli g oldp with e | v
      · simp only [hm] at h
        exact Except.noConfusion h
      · simp only [hm] at h
        have hnd' := List.nodup_cons.mp hnd
        have hb' : ∀ i ∈ rest, i < (gens.set j v).length := by
          intro i hi
          rw [List.length_set]
          exact hbound i (List.mem_cons_of_mem _ hi)
        obtain ⟨hlen, hout, hin⟩ := ih (gens.set j v) r hnd'.2 hb' h
        have hjlen : j < gens.length := hbound j (List.mem_cons_self _ _)
        refine ⟨by rw [hlen, List.length_set], ?_, ?_⟩
        · intro i hi
          have hij : j ≠ i := fun hh => hi (hh ▸ List.mem_cons_self _ _)
          have hir : i ∉ rest := fun hh => hi (List.mem_cons_of_mem _ hh)
          rw [hout i hir, List.get?_set_ne v gens hij]
        · intro i hi
          rcases List.mem_cons.mp hi with rfl | hir
          · refine ⟨g, v, hj, hm, ?_⟩
            rw [hout i hnd'.1, List.get?_set_eq_of_lt v hjlen]
          · obtain ⟨g', v', hg', hm', hr'⟩ := hin i hir
            have hij : j ≠ i := fun hh => hnd'.1 (hh ▸ hir)
            rw [List.get?_set_ne v gens hij] at hg'
            exact ⟨g', v', hg', hm', hr'⟩

lemma applyPivots_length (oldp : SPauli) : ∀ (idxs : List Nat) (gens r : Gens),
    applyPivots oldp idxs gens = .ok r → r.length = gens.length := by
  intro idxs
  induction idxs with
  | nil =>
    intro gens r h
    simp only [applyPivots, Except.ok.injEq] at h
    rw [h]
  | cons j rest ih =>
    intro gens r h
    rw [applyPivots] at h
    rcases hj : gens.get? j with _ | g
    · simp only [hj] at h
      exact Except.noConfusion h
    · simp only [hj] at h
      rcases hm : multiply_pauli g oldp with e | v
      · simp only [hm] at h
        exact Except.noConfusion h
      · simp only [hm] at h
        rw [ih _ _ h, List.length_set]

lemma processMeas_length (outcomes : List (List Char × Int)) (n : Nat)
    (gens : Gens) (M : List Char) (r : Gens)
    (h : processMeas outcomes n gens M = .ok r) :
    r.length = gens.length + caseAFlag gens M := by
  rw [processMeas] at h
  by_cases hlen : M.length ≠ n
  · rw [if_pos hlen] at h; simp at h
  · rw [if_neg hlen] at h
    rcases ha : antiIdxGo M 0 gens with e | idxs
    · simp only [ha] at h
      exact Except.noConfusion h
    · cases idxs with
      | nil =>
        simp only [ha, Except.ok.injEq] at h
        subst h
        simp [caseAFlag, ha]
      | cons p rest =>
        simp only [ha] at h
        rcases hp : gens.get? p with _ | oldp
        · simp only [hp] at h
          exact Except.noConfusion h
        · simp only [hp] at h
          rw [applyPivots_length oldp rest _ r h, List.length_set]
          simp [caseAFlag, ha]

lemma updateLoop_length (outcomes : List (List Char × Int)) (n : Nat) :
    ∀ (meas : List (List Char)) (gens r : Gens),
    updateLoop outcomes n gens meas = .ok r →
    r.length = gens.length + caseACount outcomes n gens meas := by
  intro meas
  induction meas with
  | nil =>
    intro gens r h
    simp only [updateLoop, Except.ok.injEq] at h
    subst h
    rfl
  | cons M rest ih =>
    intro gens r h
    rw [updateLoop] at h
    rcases hm : processMeas outcomes n gens M with e | gens2
    · simp only [hm] at h
      exact Except.noConfusion h
    · simp only [hm] at h
      have h1 := processMeas_length outcomes n gens M gens2 hm
      have h2 := ih gens2 r h
      simp only [caseACount, hm]
      omega

lemma updateLoop_append (outcomes : List (List Char × Int)) (n : Nat) :
    ∀ (pre rest : List (List Char)) (gens : Gens),
    updateLoop outcomes n gens (pre ++ rest) =
      match updateLoop outcomes n gens pre with
      | .error e => .error e
      | .ok g2 => updateLoop outcomes n g2 rest := by
  intro pre
  induction pre with
  | nil => intro rest gens; rfl
  | cons M pre ih =>
    intro rest gens
    rcases hm : processMeas outcomes n gens M with e | g2
    · simp only [List.cons_append, updateLoop, hm]
    · simp only [List.cons_append, updateLoop, hm]
      exact ih rest g2

lemma antiListSpec_head (M : List Char) (gens : Gens) (p : Nat) (gp : SPauli)
    (hp : gens.get? p = some gp) (hanti : antiParity gp.2 M = true)
    (hfirst : ∀ i g, i < p → gens.get? i = some g → antiParity g.2 M = false) :
    ∃ t, antiListSpec M 0 gens = p :: t := by
  have hpmem : p ∈ antiListSpec M 0 gens :=
    (mem_antiListSpec M 0 gens p).mpr ⟨p, gp, hp, hanti, by omega⟩
  rcases hl : antiListSpec M 0 gens with _ | ⟨h, t⟩
  · rw [hl] at hpmem; simp at hpmem
  · rw [hl] at hpmem
    have hpw := antiListSpec_pairwise M 0 gens
    rw [hl] at hpw
    have hhmem : h ∈ antiListSpec M 0 gens := by
      rw [hl]; exact List.mem_cons_self _ _
    obtain ⟨j, g, hj, ha, hje⟩ := (mem_antiListSpec M 0 gens h).mp hhmem
    rcases List.mem_cons.mp hpmem with rfl | hpt
    · exact ⟨t, rfl⟩
    · have hhp : h < p := (List.pairwise_cons.mp hpw).1 p hpt
      have hcomm := hfirst j g (by omega) hj
      rw [hcomm] at ha
      cases ha

/-! ## Claim theorems -/

/-- Claim C1 (counterexample): on the Scenario 1 inputs the update returns
`[(-1,"IZI"), (+1,"XII"), (+1,"IZZ")]`, which differs from the list the claim
predicts, `[(+1,"XII"), (-1,"IZI"), old "IZZ" · old "ZZI" = (+1,"ZIZ")]`;
indeed `"XII"` commutes with `"XXX"` (X agrees with X) and anticommutes with
`"ZZI"`, contrary to the claim's premise. -/
theorem scenario1_claim_counterexample :
    update_resource_with_fusions
        [(1, ['X','X','X']), (1, ['Z','Z','I']), (1, ['I','Z','Z'])]
        [['X','I','I'], ['I','Z','I']]
        [(['X','I','I'], 1), (['I','Z','I'], -1)] =
      .ok [(-1, ['I','Z','I']), (1, ['X','I','I']), (1, ['I','Z','Z'])] ∧
    multiply_pauli (1, ['I','Z','Z']) (1, ['Z','Z','I']) =
      .ok (1, ['Z','I','Z']) ∧
    ([(-1, ['I','Z','I']), (1, ['X','I','I']), (1, ['I','Z','Z'])] : Gens) ≠
      [(1, ['X','I','I']), (-1, ['I','Z','I']), (1, ['Z','I','Z'])] ∧
    antiParity ['X','X','X'] ['X','I','I'] = false ∧
    antiParity ['Z','Z','I'] ['X','I','I'] = true :=
  ⟨by rfl, by rfl, by decide, by decide, by decide⟩

/-- Claim C1 (amended): on the Scenario 1 inputs, `"XII"` anticommutes with
`"ZZI"` only and replaces generator 1 as `(+1,"XII")`; then `"IZI"`
anticommutes (in the updated list) with `"XXX"` only and replaces generator 0
as `(-1,"IZI")`; generator 2 keeps its value `(+1,"IZZ")`. -/
theorem scenario1_result :
    update_resource_with_fusions
        [(1, ['X','X','X']), (1, ['Z','Z','I']), (1, ['I','Z','Z'])]
        [['X','I','I'], ['I','Z','I']]
        [(['X','I','I'], 1), (['I','Z','I'], -1)] =
      .ok [(-1, ['I','Z','I']), (1, ['X','I','I']), (1, ['I','Z','Z'])] := by
  rfl

/-- Claim C3: for signed Pauli operators whose strings are over the alphabet
and of equal length, `multiply_pauli` accumulates the spec's per-position
phase-exponent table mod 4, concatenates the per-position result symbols in
position order, and — whenever the exponent is even, so a value is returned —
returns sign `sp * sq * (+1 if the exponent is 0 mod 4, else -1 for 2)` with
that result string. -/
theorem multiply_pauli_follows_table (sp sq : Int) (P Q : List Char)
    (hlen : P.length = Q.length) (hP : P.all isPauliChar = true)
    (hQ : Q.all isPauliChar = true) (heven : totalExp P Q % 2 = 0) :
    multiply_pauli (sp, P) (sq, Q) =
      .ok (sp * sq * (if totalExp P Q % 4 = 0 then 1 else -1),
        prodString P Q) := by
  rw [multiply_pauli_eq sp sq P Q hlen hP hQ, if_neg (by omega)]

/-- Witness for C3: `(+XX) · (+YY) = -ZZ` (two positions, each `X·Y = i·Z`,
total exponent 2). -/
theorem multiply_pauli_follows_table_witness :
    multiply_pauli (1, ['X','X']) (1, ['Y','Y']) =
      .ok (1 * 1 * (if totalExp ['X','X'] ['Y','Y'] % 4 = 0 then 1 else -1),
        prodString ['X','X'] ['Y','Y']) :=
  multiply_pauli_follows_table 1 1 ['X','X'] ['Y','Y'] rfl (by decide)
    (by decide) (by decide)

/-- Claim C4: for equal-length operators over the alphabet, `multiply_pauli`
fails with `NonHermitianPhase` exactly when the accumulated per-position
phase exponent is odd. -/
theorem multiply_pauli_error_iff_odd (sp sq : Int) (P Q : List Char)
    (hlen : P.length = Q.length) (hP : P.all isPauliChar = true)
    (hQ : Q.all isPauliChar = true) :
    multiply_pauli (sp, P) (sq, Q) = .error .nonHermitianPhase ↔
      totalExp P Q % 2 = 1 := by
  rw [multiply_pauli_eq sp sq P Q hlen hP hQ]
  by_cases h : totalExp P Q % 4 % 2 = 1
  · rw [if_pos h]; simp; omega
  · rw [if_neg h]; simp; omega

/-- Witness for C4: `(+X) · (+Y)` has odd accumulated exponent 1 and raises
`NonHermitianPhase`. -/
theorem multiply_pauli_error_iff_odd_witness :
    multiply_pauli (1, ['X']) (1, ['Y']) = .error .nonHermitianPhase ↔
      totalExp ['X'] ['Y'] % 2 = 1 :=
  multiply_pauli_error_iff_odd 1 1 ['X'] ['Y'] rfl (by decide) (by decide)

/-- Claim C5 (counterexample): `(+1,"X")` and `(+1,"Y")` are valid Hermitian
Pauli operators of equal length, yet `multiply_pauli` raises
`NonHermitianPhase` on them (X·Y = i·Z is not Hermitian), so the claim's
"the NonHermitianPhase branch is unreachable for all valid Hermitian inputs"
is false. -/
theorem multiply_closure_counterexample :
    (['X'] : List Char).all isPauliChar = true ∧
    (['Y'] : List Char).all isPauliChar = true ∧
    (['X'] : List Char).length = (['Y'] : List Char).length ∧
    multiply_pauli (1, ['X']) (1, ['Y']) = .error .nonHermitianPhase :=
  ⟨by decide, by decide, rfl, by rfl⟩

/-- Claim C5 (amended): for valid Hermitian Pauli operators of equal length
`n` that moreover commute with each other, `multiply_pauli` succeeds — so the
`NonHermitianPhase` branch is reachable only for anticommuting inputs — and
returns a sign in `{+1,-1}` and a string of length `n`. -/
theorem multiply_closure_commuting (sp sq : Int) (P Q : List Char)
    (hsp : sp = 1 ∨ sp = -1) (hsq : sq = 1 ∨ sq = -1)
    (hP : P.all isPauliChar = true) (hQ : Q.all isPauliChar = true)
    (hlen : P.length = Q.length) (hcomm : antiParity P Q = false) :
    ∃ s R, multiply_pauli (sp, P) (sq, Q) = .ok (s, R) ∧
      (s = 1 ∨ s = -1) ∧ R.length = P.length := by
  have hpar := totalExp_parity P Q hP hQ
  rw [hcomm] at hpar
  simp at hpar
  refine ⟨sp * sq * (if totalExp P Q % 4 = 0 then 1 else -1), prodString P Q,
    ?_, ?_, prodString_length P Q hlen⟩
  · rw [multiply_pauli_eq sp sq P Q hlen hP hQ, if_neg (by omega)]
  · rcases hsp with rfl | rfl <;> rcases hsq with rfl | rfl <;>
      by_cases h4 : totalExp P Q % 4 = 0 <;> simp [h4]

/-- Witness for the amended C5: `(+XX) · (-YY)` — commuting operators —
multiplies to `(+ZZ)`. -/
theorem multiply_closure_commuting_witness :
    ∃ s R, multiply_pauli (1, ['X','X']) (-1, ['Y','Y']) = .ok (s, R) ∧
      (s = 1 ∨ s = -1) ∧ R.length = (['X','X'] : List Char).length :=
  multiply_closure_commuting 1 (-1) ['X','X'] ['Y','Y'] (Or.inl rfl)
    (Or.inr rfl) (by decide) (by decide) rfl (by decide)

/-- Claim C9: `anticommutes` is symmetric on equal-length Pauli strings over
the alphabet. -/
theorem anticommutes_symm (P Q : List Char) (hlen : P.length = Q.length)
    (hP : P.all isPauliChar = true) (hQ : Q.all isPauliChar = true) :
    anticommutes P Q = anticommutes Q P := by
  rw [anticommutes, anticommutes, antiParity_symm, hlen]

/-- Witness for C9: `"XZ"` against `"ZZ"` in both orders. -/
theorem anticommutes_symm_witness :
    anticommutes ['X','Z'] ['Z','Z'] = anticommutes ['Z','Z'] ['X','Z'] :=
  anticommutes_symm ['X','Z'] ['Z','Z'] rfl (by decide) (by decide)

/-- Claim C10: every string commutes with itself — `anticommutes(P, P)`
returns `false` for any string `P` whatsoever, since equal symbols at a
position never contribute parity. -/
theorem anticommutes_self_false (P : List Char) :
    anticommutes P P = .ok false := by
  rw [anticommutes, if_neg (by simp), antiParity_self]

/-- Claim C2: when the measurement `M` (of the right length, against
generators of the right length) has at least one anticommuting generator and
the step succeeds, the pivot `p` is the first anticommuting index in list
order, the pivot slot is overwritten with `(outcome, M)`, every other
anticommuting generator `j` is replaced by `multiply_pauli` of its pre-step
value with the pivot's saved pre-update value `gp`, and generators commuting
with `M` are left unchanged. -/
theorem update_caseB_pivot (outcomes : List (List Char × Int)) (n : Nat)
    (gens : Gens) (M : List Char) (r : Gens) (p : Nat) (gp : SPauli)
    (hlen : M.length = n) (hg : ∀ g ∈ gens, (g.2).length = M.length)
    (hp : gens.get? p = some gp) (hanti : antiParity gp.2 M = true)
    (hfirst : ∀ i g, i < p → gens.get? i = some g → antiParity g.2 M = false)
    (hok : processMeas outcomes n gens M = .ok r) :
    r.length = gens.length ∧
    r.get? p = some (getOutcome outcomes M, M) ∧
    ∀ j g, j ≠ p → gens.get? j = some g →
      (antiParity g.2 M = true →
        ∃ v, multiply_pauli g gp = .ok v ∧ r.get? j = some v) ∧
      (antiParity g.2 M = false → r.get? j = some g) := by
  obtain ⟨t, hl⟩ := antiListSpec_head M gens p gp hp hanti hfirst
  rw [processMeas, if_neg (by omega)] at hok
  simp only [antiIdxGo_eq M 0 gens hg, hl, hp] at hok
  have hpw := antiListSpec_pairwise M 0 gens
  rw [hl] at hpw
  have hpt := List.pairwise_cons.mp hpw
  have hnd : t.Nodup := hpt.2.imp Nat.ne_of_lt
  have hplen : p < gens.length := by
    by_contra hle
    rw [List.get?_eq_none.mpr (by omega)] at hp
    cases hp
  have hbound : ∀ j ∈ t, j < (gens.set p (getOutcome outcomes M, M)).length := by
    intro j hj
    have hjmem : j ∈ antiListSpec M 0 gens := by
      rw [hl]; exact List.mem_cons_of_mem _ hj
    obtain ⟨i, g', hg', _, hje⟩ := (mem_antiListSpec M 0 gens j).mp hjmem
    have hilen : i < gens.length := by
      by_contra hle
      rw [List.get?_eq_none.mpr (by omega)] at hg'
      cases hg'
    rw [List.length_set]
    omega
  obtain ⟨hrlen, hout, hin⟩ := applyPivots_ok gp t _ r hnd hbound hok
  have hptnot : p ∉ t := fun hmem => absurd (hpt.1 p hmem) (lt_irrefl p)
  refine ⟨?_, ?_, ?_⟩
  · rw [hrlen, List.length_set]
  · rw [hout p hptnot, List.get?_set_eq_of_lt _ hplen]
  · intro j g hjp hgj
    constructor
    · intro hanti2
      have hjmem : j ∈ antiListSpec M 0 gens :=
        (mem_antiListSpec M 0 gens j).mpr ⟨j, g, hgj, hanti2, by omega⟩
      rw [hl] at hjmem
      rcases List.mem_cons.mp hjmem with rfl | hjt
      · exact absurd rfl hjp
      · obtain ⟨g', v, hg', hm', hr'⟩ := hin j hjt
        rw [List.get?_set_ne _ gens (Ne.symm hjp), hgj] at hg'
        injection hg' with hg'
        subst hg'
        exact ⟨v, hm', hr'⟩
    · intro hcomm2
      have hjnot : j ∉ antiListSpec M 0 gens := by
        intro hmem
        obtain ⟨i, g', hg', ha', hje⟩ := (mem_antiListSpec M 0 gens j).mp hmem
        have hij : i = j := by omega
        subst hij
        rw [hgj] at hg'
        injection hg' with hg'
        subst hg'
        rw [hcomm2] at ha'
        cases ha'
      have hjt : j ∉ t := fun hmem => hjnot (by
        rw [hl]; exact List.mem_cons_of_mem _ hmem)
      rw [hout j hjt, List.get?_set_ne _ gens (Ne.symm hjp), hgj]

/-- Witness for C2: generators `[+XX, +ZZ, +YY]` and measurement `"XI"`; the
pivot is index 1 (`+ZZ`), index 2 becomes `(+YY)·(+ZZ) = -XX`, index 0 is
untouched. -/
theorem update_caseB_pivot_witness :
    ([(1, ['X','X']), (1, ['X','I']), (-1, ['X','X'])] : Gens).length =
        ([(1, ['X','X']), (1, ['Z','Z']), (1, ['Y','Y'])] : Gens).length ∧
      ([(1, ['X','X']), (1, ['X','I']), (-1, ['X','X'])] : Gens).get? 1 =
        some (getOutcome [] ['X','I'], ['X','I']) ∧
      ∀ j g, j ≠ 1 →
        ([(1, ['X','X']), (1, ['Z','Z']), (1, ['Y','Y'])] : Gens).get? j =
          some g →
        (antiParity g.2 ['X','I'] = true →
          ∃ v, multiply_pauli g (1, ['Z','Z']) = .ok v ∧
            ([(1, ['X','X']), (1, ['X','I']), (-1, ['X','X'])] : Gens).get? j =
              some v) ∧
        (antiParity g.2 ['X','I'] = false →
          ([(1, ['X','X']), (1, ['X','I']), (-1, ['X','X'])] : Gens).get? j =
            some g) :=
  update_caseB_pivot [] 2 [(1, ['X','X']), (1, ['Z','Z']), (1, ['Y','Y'])]
    ['X','I'] [(1, ['X','X']), (1, ['X','I']), (-1, ['X','X'])] 1 (1, ['Z','Z'])
    rfl (by decide) rfl (by decide)
    (by
      intro i g hi hg2
      have hi0 : i = 0 := by omega
      subst hi0
      simp only [List.get?_cons_zero, Option.some.injEq] at hg2
      subst hg2
      decide)
    (by rfl)

/-- Claim C6: when `update_resource_with_fusions` returns a list, its length
is the initial length plus exactly the number of processed measurements whose
anticommuting-index scan came back empty (Case A); moreover no single
successful step ever shrinks the list. -/
theorem update_length_invariant (gens : Gens) (meas : List (List Char))
    (outcomes : List (List Char × Int)) (r : Gens)
    (h : update_resource_with_fusions gens meas outcomes = .ok r) :
    r.length = gens.length + caseACount outcomes (inferN gens meas) gens meas ∧
    ∀ gens2 M r2, processMeas outcomes (inferN gens meas) gens2 M = .ok r2 →
      gens2.length ≤ r2.length := by
  constructor
  · exact updateLoop_length outcomes (inferN gens meas) meas gens r h
  · intro gens2 M r2 h2
    have := processMeas_length outcomes (inferN gens meas) gens2 M r2 h2
    omega

/-- Witness for C6: the empty generator list with one measurement `"X"` grows
by exactly one Case A append. -/
theorem update_length_invariant_witness :
    ([(1, ['X'])] : Gens).length =
        ([] : Gens).length + caseACount [] (inferN [] [['X']]) [] [['X']] ∧
      ∀ gens2 M r2, processMeas [] (inferN [] [['X']]) gens2 M = .ok r2 →
        gens2.length ≤ r2.length :=
  update_length_invariant [] [['X']] [] [(1, ['X'])] (by rfl)

/-- Claim C7: if the measurement `M` (of the inferred length) commutes with
every current generator, the step appends exactly `(outcome, M)` at the end —
where `outcome` is the outcome map's value for `M`, defaulting to `+1` when
`M` is absent — and leaves every pre-existing entry unchanged at its index. -/
theorem update_caseA_appends (outcomes : List (List Char × Int)) (n : Nat)
    (gens : Gens) (M : List Char) (hlen : M.length = n)
    (hg : ∀ g ∈ gens, (g.2).length = M.length)
    (hcomm : ∀ g ∈ gens, antiParity g.2 M = false) :
    ∃ o, (List.lookup M outcomes = some o ∨
        (List.lookup M outcomes = none ∧ o = 1)) ∧
      processMeas outcomes n gens M = .ok (gens ++ [(o, M)]) := by
  refine ⟨getOutcome outcomes M, ?_, ?_⟩
  · rcases h : List.lookup M outcomes with _ | v <;> simp [getOutcome, h]
  · rw [processMeas, if_neg (by omega), antiIdxGo_eq M 0 gens hg,
      antiListSpec_nil_of_commute M 0 gens hcomm]

/-- Witness for C7: one generator `+Z`, measurement `"Z"` (commuting), with
an explicit `-1` outcome recorded for it. -/
theorem update_caseA_appends_witness :
    ∃ o, (List.lookup ['Z'] [(['Z'], -1)] = some o ∨
        (List.lookup ['Z'] [(['Z'], -1)] = none ∧ o = 1)) ∧
      processMeas [(['Z'], -1)] 1 [(1, ['Z'])] ['Z'] =
        .ok ([(1, ['Z'])] ++ [(o, ['Z'])]) :=
  update_caseA_appends [(['Z'], -1)] 1 [(1, ['Z'])] ['Z'] rfl (by decide)
    (by decide)

/-- Claim C8 (counterexample): with generators `[+X, +Y]` (inferred qubit
count 1) and measurements `["Z", "ZZ"]`, the second measurement has the wrong
length yet the call fails with `NonHermitianPhase` — raised while processing
the first measurement — not with `LengthMismatch`. -/
theorem update_badLength_counterexample :
    update_resource_with_fusions [(1, ['X']), (1, ['Y'])] [['Z'], ['Z','Z']] []
        = .error .nonHermitianPhase ∧
      (['Z','Z'] : List Char).length ≠
        inferN [(1, ['X']), (1, ['Y'])] [['Z'], ['Z','Z']] :=
  ⟨by rfl, by decide⟩

/-- Claim C8 (amended): if some measurement's length differs from the
inferred qubit count then the update never returns a list (the caller's
input is untouched — the function works on a copy, which is implicit in this
value-semantics embedding); and if all measurements before the offending one
are processed without error, the reported error is `LengthMismatch`. -/
theorem update_badLength_errors (gens : Gens) (meas : List (List Char))
    (outcomes : List (List Char × Int)) (pre post : List (List Char))
    (M : List Char) (hsplit : meas = pre ++ M :: post)
    (hM : M.length ≠ inferN gens meas) :
    (∀ r, update_resource_with_fusions gens meas outcomes ≠ .ok r) ∧
    (∀ gens2, updateLoop outcomes (inferN gens meas) gens pre = .ok gens2 →
      update_resource_with_fusions gens meas outcomes =
        .error .lengthMismatch) := by
  subst hsplit
  simp only [update_resource_with_fusions]
  rw [updateLoop_append outcomes (inferN gens (pre ++ M :: post)) pre
    (M :: post) gens]
  have hstep : ∀ g2 : Gens,
      updateLoop outcomes (inferN gens (pre ++ M :: post)) g2 (M :: post) =
        .error .lengthMismatch := by
    intro g2
    rw [updateLoop, processMeas, if_pos hM]
  rcases hpre : updateLoop outcomes (inferN gens (pre ++ M :: post)) gens pre
      with e | g2
  · exact ⟨fun r hr => Except.noConfusion hr,
      fun g2' hg2 => Except.noConfusion hg2⟩
  · refine ⟨fun r hr => ?_, fun g2' hg2 => hstep g2⟩
    have hr2 : updateLoop outcomes (inferN gens (pre ++ M :: post)) g2
        (M :: post) = .ok r := hr
    rw [hstep g2] at hr2
    exact Except.noConfusion hr2

/-- Witness for the amended C8: generators `[+X, +Y]`, measurements
`["Z", "ZZ"]` split as `pre = ["Z"]`, offending `M = "ZZ"`. -/
theorem update_badLength_errors_witness :
    (∀ r, update_resource_with_fusions [(1, ['X']), (1, ['Y'])]
        [['Z'], ['Z','Z']] [] ≠ .ok r) ∧
    (∀ gens2, updateLoop [] (inferN [(1, ['X']), (1, ['Y'])] [['Z'], ['Z','Z']])
        [(1, ['X']), (1, ['Y'])] [['Z']] = .ok gens2 →
      update_resource_with_fusions [(1, ['X']), (1, ['Y'])] [['Z'], ['Z','Z']] []
        = .error .lengthMismatch) :=
  update_badLength_errors [(1, ['X']), (1, ['Y'])] [['Z'], ['Z','Z']] []
    [['Z']] [] ['Z','Z'] rfl (by decide)

end FusionUpdate
